import Mathlib

/-!
Verification development for the `atinline` package: a runtime
bytecode-rewriting hack that splices the body of a function decorated with
`@inline` into its caller at the call site.

The embedding works at the level of the `byteplay` instruction lists the
source manipulates: an instruction is an opcode with its resolved operand,
a code object is a `List Instr` that may also contain `SetLineno` pseudo
entries and label marks, exactly as `byteplay.Code.code` does.  Python
exceptions are modelled with `Except`/`Option`, Python's negative list
indexing with an explicit wrap-around lookup, and the shared id generator
with explicit counter threading.
-/

namespace Atinline

/-- Runtime values that can appear as `LOAD_CONST` operands or on the
operand stack of the evaluation machine: integers, strings, function
objects (referenced by id), the globals dictionary of a function (the
value `func.func_globals` that `_rename_local_vars` plants as a constant),
and the `_inlineme` helper that the decorator preamble loads. -/
inductive Value where
  | int (n : Int)
  | str (s : String)
  | func (fid : Nat)
  | gdict (fid : Nat)
  | inlinemeFn
deriving DecidableEq, Repr

/-- A byteplay label: either created by `Code.from_code` at a raw byte
offset, or freshly synthesized by `Label()` during inlining (numbered by
an allocation counter, since distinct `Label()` objects are distinct). -/
inductive Lbl where
  | atOffset (o : Nat)
  | fresh (k : Nat)
deriving DecidableEq, Repr

/-- The byteplay view of one entry of `Code.code`: a real instruction with
its resolved operand, a `(Label, None)` entry (`LabelMark`), or a
`(SetLineno, n)` entry. -/
inductive Instr where
  | LOAD_CONST (v : Value)
  | LOAD_FAST (n : String)
  | STORE_FAST (n : String)
  | DELETE_FAST (n : String)
  | LOAD_GLOBAL (n : String)
  | LOAD_NAME (n : String)
  | STORE_NAME (n : String)
  | DELETE_NAME (n : String)
  | LOAD_DEREF (n : String)
  | STORE_DEREF (n : String)
  | LOAD_ATTR (n : String)
  | BINARY_ADD
  | BINARY_SUBSCR
  | POP_TOP
  | RETURN_VALUE
  | JUMP_ABSOLUTE (l : Lbl)
  | CALL_FUNCTION (arg : Nat)
  | LabelMark (l : Lbl)
  | SetLineno (k : Nat)
deriving DecidableEq, Repr

/-- Stack effect of an instruction, as byteplay's `getse` computes it:
`(number popped, number pushed)`.  `getse` has no entry for label or
`SetLineno` pseudo entries and raises on them, modelled by `none`.
For `CALL_FUNCTION` the operand's low byte counts positional arguments and
the high byte keyword pairs, each keyword pair occupying two stack slots. -/
def getse : Instr → Option (Nat × Nat)
  | .LOAD_CONST _ => some (0, 1)
  | .LOAD_FAST _ => some (0, 1)
  | .STORE_FAST _ => some (1, 0)
  | .DELETE_FAST _ => some (0, 0)
  | .LOAD_GLOBAL _ => some (0, 1)
  | .LOAD_NAME _ => some (0, 1)
  | .STORE_NAME _ => some (1, 0)
  | .DELETE_NAME _ => some (0, 0)
  | .LOAD_DEREF _ => some (0, 1)
  | .STORE_DEREF _ => some (1, 0)
  | .LOAD_ATTR _ => some (1, 1)
  | .BINARY_ADD => some (2, 1)
  | .BINARY_SUBSCR => some (2, 1)
  | .POP_TOP => some (1, 0)
  | .RETURN_VALUE => some (1, 0)
  | .JUMP_ABSOLUTE _ => some (0, 0)
  | .CALL_FUNCTION arg => some (1 + arg % 256 + 2 * (arg / 256 % 256), 1)
  | .LabelMark _ => none
  | .SetLineno _ => none

/-- Python list indexing `l[i]`: a negative index wraps once from the end,
an index out of range on either side raises `IndexError` (here `none`). -/
def pyGet {α : Type} (l : List α) (i : Int) : Option α :=
  if 0 ≤ i then l.get? i.toNat
  else if -i ≤ (l.length : Int) then l.get? (l.length - (-i).toNat)
  else none

/-- Predicate for `op[0] != SetLineno`, used when the source filters line
number entries out of a byteplay code list. -/
def isSetLineno : Instr → Bool
  | .SetLineno _ => true
  | _ => false

/-- The filtering `[op for op in c.code if op[0] != SetLineno]` that both
`make_code_from_frame` and `_inlineme` perform. -/
def stripSetLineno (l : List Instr) : List Instr :=
  l.filter fun i => !isSetLineno i

/-- Fuel bound for the backward scans.  Every scan step moves the
(possibly negative, Python-style) index down by one, and any index below
`-length` raises `IndexError`; starting from an index below `length` the
scan therefore performs fewer than `2 * length + 8` steps before it either
stops or fails, so this fuel is never the reason a scan ends. -/
def scanFuel (c : List Instr) : Nat :=
  2 * c.length + 8

/-- The inner `while npush - npop != 1` accumulation loop shared by
`find_caller` (lines 146-149) and `_inlineme` (lines 220-223): while the
accumulated stack effect of the instructions examined so far does not push
exactly one item, move one instruction back and add its pops and pushes.
An index below the front of the list raises `IndexError` (`.error`), as
does reading an entry `getse` cannot handle. -/
def innerScan (c : List Instr) : Nat → Int → Nat → Nat → Except Unit (Int × Nat × Nat)
  | 0, _, _, _ => .error ()
  | fuel + 1, loadsite, npop, npush =>
    if (npush : Int) - (npop : Int) = 1 then .ok (loadsite, npop, npush)
    else
      match pyGet c (loadsite - 1) with
      | none => .error ()
      | some ins =>
        match getse ins with
        | none => .error ()
        | some (p, u) => innerScan c fuel (loadsite - 1) (npop + p) (npush + u)

/-- The outer argument-skipping loop of `find_caller` (lines 140-151):
for each remaining argument, read the stack effect of the instruction at
`loadsite`, run the inner accumulation, then decrement both the argument
count and `loadsite`. -/
def find_caller_scan_loop (c : List Instr) : Nat → Int → Except Unit Int
  | 0, loadsite => .ok loadsite
  | numargs + 1, loadsite =>
    match pyGet c loadsite with
    | none => .error ()
    | some ins =>
      match getse ins with
      | none => .error ()
      | some (p, u) =>
        match innerScan c (scanFuel c) loadsite p u with
        | .error _ => .error ()
        | .ok (ls2, _, _) => find_caller_scan_loop c numargs (ls2 - 1)

/-- The backward scan of `find_caller`, entered with
`loadsite = callsite - 1` (line 139) and the full `CALL_FUNCTION` operand
as the argument count (line 138). -/
def find_caller_scan (c : List Instr) (callsite : Nat) (numargs : Nat) : Except Unit Int :=
  find_caller_scan_loop c numargs ((callsite : Int) - 1)

/-- The outer argument-skipping loop of `_inlineme` (lines 218-225).  It
is the same loop as in `find_caller` except that the per-argument
decrement of `loadsite_end` is commented out in the source (line 225), so
consecutive arguments are scanned from the same position. -/
def inlineme_scan_loop (c : List Instr) : Nat → Int → Except Unit Int
  | 0, loadsite => .ok loadsite
  | numargs + 1, loadsite =>
    match pyGet c loadsite with
    | none => .error ()
    | some ins =>
      match getse ins with
      | none => .error ()
      | some (p, u) =>
        match innerScan c (scanFuel c) loadsite p u with
        | .error _ => .error ()
        | .ok (ls2, _, _) => inlineme_scan_loop c numargs ls2

/-- The backward scan of `_inlineme` (lines 216-225), entered with
`loadsite_end = callsite - 1`. -/
def inlineme_scan (c : List Instr) (callsite : Nat) (numargs : Nat) : Except Unit Int :=
  inlineme_scan_loop c numargs ((callsite : Int) - 1)

/-- The `while c.code[loadsite][0] in (LOAD_ATTR,)` walk that both
`find_caller` (lines 155-157) and `_inlineme` (lines 227-228) perform to
step over attribute lookups below the argument groups. -/
def attr_walk (c : List Instr) : Nat → Int → Except Unit Int
  | 0, _ => .error ()
  | fuel + 1, loadsite =>
    match pyGet c loadsite with
    | none => .error ()
    | some ins =>
      match ins with
      | .LOAD_ATTR _ => attr_walk c fuel (loadsite - 1)
      | _ => .ok loadsite

/-- Caller bytecode for `def g(): return f(1, k=2)`: one positional and
one keyword argument, so the `CALL_FUNCTION` operand is `0x0101 = 257`. -/
def kwCallerCode : List Instr :=
  [.LOAD_GLOBAL "f", .LOAD_CONST (.int 1), .LOAD_CONST (.str "k"),
   .LOAD_CONST (.int 2), .CALL_FUNCTION 257, .RETURN_VALUE]

/-- C3: the claim says that whenever the call passes keyword arguments
(nonzero high byte of the `CALL_FUNCTION` operand) `_inlineme` returns
silently, raising no exception.  It does not: `_inlineme` reaches the
keyword-argument bail-out (line 246) only after `find_caller(2)` has
already scanned backwards for as many argument groups as the full 16-bit
operand demands (line 138).  For the caller `def g(): return f(1, k=2)`
the operand is 257, the scan walks off the front of the six-entry
instruction list and raises an uncaught `IndexError` that propagates into
user code, contradicting both the claim and `_inlineme`'s own docstring
("It exits without making any changes...").  The theorem evaluates the
embedded scan at that call site: the call site is a `CALL_FUNCTION` with
nonzero high byte, and the scan fails. -/
theorem claim_C3_kwargs_scan_raises :
    kwCallerCode.get? 4 = some (.CALL_FUNCTION 257) ∧
    257 / 256 ≠ 0 ∧
    find_caller_scan kwCallerCode 4 257 = .error () := by
  refine ⟨rfl, by decide, ?_⟩
  rfl

/-- Caller bytecode for `def g(): return f(x, y)`: two positional
arguments, each loaded by a single `LOAD_FAST`. -/
def twoArgCallerCode : List Instr :=
  [.LOAD_GLOBAL "f", .LOAD_FAST "x", .LOAD_FAST "y", .CALL_FUNCTION 2, .RETURN_VALUE]

/-- C7: the claim says the backward scan lands on the instruction that
loaded the called function.  The copy of the scan in `find_caller`
(which decrements `loadsite` after each argument group, line 151) does:
on `f(x, y)` it reaches index 0, the `LOAD_GLOBAL` of `f`.  The copy in
`_inlineme` has that decrement commented out (line 225), so for two
arguments it rescans the same group twice and stops at index 2; the
instruction then reached (index 1 after the `loadsite_start` step and the
`LOAD_ATTR` walk) is the `LOAD_FAST` of the first argument, not the
loader, and it is that wrong instruction `_inlineme` later deletes. -/
theorem claim_C7_inlineme_scan_misses_loader :
    find_caller_scan twoArgCallerCode 3 2 = .ok 0 ∧
    twoArgCallerCode.get? 0 = some (.LOAD_GLOBAL "f") ∧
    inlineme_scan twoArgCallerCode 3 2 = .ok 2 ∧
    attr_walk twoArgCallerCode (scanFuel twoArgCallerCode) (2 - 1) = .ok 1 ∧
    twoArgCallerCode.get? 1 = some (.LOAD_FAST "x") := by
  exact ⟨rfl, rfl, rfl, rfl, rfl⟩

/-- Decimal digit characters, as produced by Python's `%s` formatting of
an integer. -/
def decChar : Nat → Char
  | 0 => '0' | 1 => '1' | 2 => '2' | 3 => '3' | 4 => '4'
  | 5 => '5' | 6 => '6' | 7 => '7' | 8 => '8' | _ => '9'

/-- Numeric value of a decimal digit character (inverse of `decChar` on
digits). -/
def charVal (c : Char) : Nat :=
  if c = '0' then 0 else if c = '1' then 1 else if c = '2' then 2
  else if c = '3' then 3 else if c = '4' then 4 else if c = '5' then 5
  else if c = '6' then 6 else if c = '7' then 7 else if c = '8' then 8 else 9

/-- Decimal representation of a natural number, most significant digit
first, with explicit fuel (any fuel above the digit count gives the same
answer; `natChars` supplies `n + 1`, which always suffices because the
quotient strictly decreases). -/
def natCharsAux : Nat → Nat → List Char
  | 0, _ => []
  | fuel + 1, n =>
    if n < 10 then [decChar n]
    else natCharsAux fuel (n / 10) ++ [decChar (n % 10)]

/-- Decimal string of a natural number, i.e. Python's `str(n)` for the
counter values the `_ids` generator yields. -/
def natChars (n : Nat) : List Char :=
  natCharsAux (n + 1) n

/-- Left fold reading a digit string back into a number. -/
def charsVal (l : List Char) : Nat :=
  l.foldl (fun a c => 10 * a + charVal c) 0

theorem charVal_decChar {n : Nat} (h : n < 10) : charVal (decChar n) = n := by
  interval_cases n <;> rfl

theorem foldl_val_eq (l : List Char) (a : Nat) :
    l.foldl (fun a c => 10 * a + charVal c) a = a * 10 ^ l.length + charsVal l := by
  induction l generalizing a with
  | nil => simp [charsVal]
  | cons c t ih =>
    simp only [List.foldl_cons, charsVal, List.length_cons]
    rw [ih, ih]
    ring

theorem charsVal_natCharsAux : ∀ fuel n, n < fuel → charsVal (natCharsAux fuel n) = n := by
  intro fuel
  induction fuel with
  | zero => intro n h; omega
  | succ f ih =>
    intro n h
    by_cases h10 : n < 10
    · simp [natCharsAux, h10, charsVal, charVal_decChar h10]
    · have hd : n / 10 < f := by omega
      simp only [natCharsAux, if_neg h10]
      have : charsVal (natCharsAux f (n / 10) ++ [decChar (n % 10)]) =
          10 * charsVal (natCharsAux f (n / 10)) + charVal (decChar (n % 10)) := by
        simp [charsVal, List.foldl_append]
      rw [this, ih _ hd, charVal_decChar (Nat.mod_lt _ (by omega))]
      omega

theorem charsVal_natChars (n : Nat) : charsVal (natChars n) = n :=
  charsVal_natCharsAux _ _ (Nat.lt_succ_self n)

theorem natChars_injective {m n : Nat} (h : natChars m = natChars n) : m = n := by
  have := charsVal_natChars m
  rw [h, charsVal_natChars] at this
  omega

theorem decChar_ne_underscore (n : Nat) : decChar n ≠ '_' := by
  unfold decChar
  split <;> decide

theorem underscore_not_mem_natCharsAux : ∀ fuel n, '_' ∉ natCharsAux fuel n := by
  intro fuel
  induction fuel with
  | zero => intro n h; simp [natCharsAux] at h
  | succ f ih =>
    intro n h
    by_cases h10 : n < 10
    · simp [natCharsAux, h10] at h
      exact decChar_ne_underscore n h.symm
    · simp [natCharsAux, h10, List.mem_append] at h
      rcases h with h | h
      · exact ih _ h
      · exact decChar_ne_underscore (n % 10) h.symm

theorem underscore_not_mem_natChars (n : Nat) : '_' ∉ natChars n :=
  underscore_not_mem_natCharsAux _ n

/-- Splitting at the first underscore: if two lists agree and each is an
underscore-free block followed by an underscore, the blocks agree. -/
theorem underscore_split : ∀ (a b : List Char) (s t : List Char),
    '_' ∉ a → '_' ∉ b → a ++ '_' :: s = b ++ '_' :: t → a = b ∧ s = t := by
  intro a
  induction a with
  | nil =>
    intro b s t _ hb h
    cases b with
    | nil => simpa using h
    | cons c bt =>
      simp only [List.nil_append, List.cons_append, List.cons.injEq] at h
      exact absurd (List.mem_cons_self c bt) (h.1 ▸ hb)
  | cons c at_ ih =>
    intro b s t ha hb h
    cases b with
    | nil =>
      simp only [List.cons_append, List.nil_append, List.cons.injEq] at h
      exact absurd (List.mem_cons_self c at_) (h.1 ▸ ha)
    | cons d bt =>
      simp only [List.cons_append, List.cons.injEq] at h
      have := ih bt s t (fun hm => ha (List.mem_cons_of_mem c hm))
        (fun hm => hb (h.1 ▸ List.mem_cons_of_mem d hm)) h.2
      exact ⟨by rw [h.1, this.1], this.2⟩

/-- The generated-name prefix `"_inlined_var"` as characters. -/
def inlinedVarStem : List Char :=
  ['_', 'i', 'n', 'l', 'i', 'n', 'e', 'd', '_', 'v', 'a', 'r']

/-- The body of `new_name` for a given id drawn from the `_ids` generator:
`"_inlined_var%s" % id` when no name is supplied, and
`"_inlined_var%s_%s" % (id, name)` otherwise. -/
def newNameStr (i : Nat) (nm : Option String) : String :=
  match nm with
  | none => String.mk (inlinedVarStem ++ natChars i)
  | some s => String.mk (inlinedVarStem ++ (natChars i ++ ('_' :: s.data)))

/-- `new_name`, with the state of the shared `_ids` generator threaded
explicitly: the generator has yielded the values `1 .. ctr` so far, and
the call draws `ctr + 1`. -/
def new_name (ctr : Nat) (nm : Option String) : String × Nat :=
  (newNameStr (ctr + 1) nm, ctr + 1)

/-- Names built from different generator ids are different strings: the id
block is underscore-free and delimited, so equal strings force equal
decimal blocks and hence equal ids. -/
theorem newNameStr_inj_id {i j : Nat} (a b : Option String)
    (h : newNameStr i a = newNameStr j b) : i = j := by
  match a, b with
  | none, none =>
    simp only [newNameStr] at h
    have hd : inlinedVarStem ++ natChars i = inlinedVarStem ++ natChars j :=
      congrArg String.data h
    exact natChars_injective (List.append_cancel_left hd)
  | none, some t =>
    exfalso
    simp only [newNameStr] at h
    have hd : inlinedVarStem ++ natChars i =
        inlinedVarStem ++ (natChars j ++ ('_' :: t.data)) := congrArg String.data h
    have h2 : natChars i = natChars j ++ ('_' :: t.data) := List.append_cancel_left hd
    exact underscore_not_mem_natChars i
      (h2 ▸ List.mem_append_right _ (List.mem_cons_self _ _))
  | some s, none =>
    exfalso
    simp only [newNameStr] at h
    have hd : inlinedVarStem ++ (natChars i ++ ('_' :: s.data)) =
        inlinedVarStem ++ natChars j := congrArg String.data h
    have h2 : natChars i ++ ('_' :: s.data) = natChars j := List.append_cancel_left hd
    exact underscore_not_mem_natChars j
      (h2 ▸ List.mem_append_right _ (List.mem_cons_self _ _))
  | some s, some t =>
    simp only [newNameStr] at h
    have hd : inlinedVarStem ++ (natChars i ++ ('_' :: s.data)) =
        inlinedVarStem ++ (natChars j ++ ('_' :: t.data)) := congrArg String.data h
    have h2 : natChars i ++ ('_' :: s.data) = natChars j ++ ('_' :: t.data) :=
      List.append_cancel_left hd
    exact natChars_injective (underscore_split _ _ _ _ (underscore_not_mem_natChars i)
      (underscore_not_mem_natChars j) h2).1

/-- A run of successive `new_name` calls from a given generator state:
the list of names produced for a list of requested base names. -/
def runNewNames : Nat → List (Option String) → List String
  | _, [] => []
  | c, r :: rs =>
    let p := new_name c r
    p.1 :: runNewNames p.2 rs

theorem runNewNames_get : ∀ (reqs : List (Option String)) (c i : Nat),
    (runNewNames c reqs).get? i = (reqs.get? i).map fun r => newNameStr (c + i + 1) r := by
  intro reqs
  induction reqs with
  | nil => intro c i; simp [runNewNames]
  | cons r rs ih =>
    intro c i
    cases i with
    | zero =>
      show (newNameStr (c + 1) r :: runNewNames (c + 1) rs).get? 0 = _
      simp
    | succ k =>
      show (newNameStr (c + 1) r :: runNewNames (c + 1) rs).get? (k + 1) = _
      simp only [List.get?_cons_succ, ih (c + 1) k]
      have harith : c + 1 + k + 1 = c + (k + 1) + 1 := by omega
      rw [harith]

/-- C10: every call to `new_name` returns a name distinct from the name
returned by every earlier call.  The shared `_ids` counter increases by
one per call, the counter value is embedded as an underscore-delimited
decimal block in the generated name, and distinct counter values give
distinct strings; hence in any run of `new_name` calls (in particular the
calls `_rename_local_vars` makes across any number of inlinings) the
produced names are pairwise distinct. -/
theorem claim_C10_new_name_unique (c : Nat) (reqs : List (Option String))
    (i j : Nat) (hij : i ≠ j) (hi : i < reqs.length) (hj : j < reqs.length) :
    (runNewNames c reqs).get? i ≠ (runNewNames c reqs).get? j := by
  intro h
  rw [runNewNames_get, runNewNames_get, List.get?_eq_get hi, List.get?_eq_get hj] at h
  simp only [Option.map, Option.some.injEq] at h
  have := newNameStr_inj_id _ _ h
  omega

/-- Witness for C10 at a concrete run: three calls from a fresh
generator, with a repeated requested base name, still give distinct
names at positions 0 and 2. -/
theorem claim_C10_new_name_unique_witness :
    (runNewNames 0 [some "x", none, some "x"]).get? 0 ≠
      (runNewNames 0 [some "x", none, some "x"]).get? 2 :=
  claim_C10_new_name_unique 0 [some "x", none, some "x"] 0 2
    (by decide) (by decide) (by decide)

/-- Lookup in the association-list model of a Python dict: the most
recent binding of a key wins. -/
def dlookup {α : Type} : List (String × α) → String → Option α
  | [], _ => none
  | (a, b) :: rest, k => if a = k then some b else dlookup rest k

/-- Termination weight for the rename loop: a `LOAD_GLOBAL` is replaced
in place and two fresh constant-loading entries are inserted before the
iteration index, so the loop revisits those two entries next; weighting a
`LOAD_GLOBAL` as 4 makes that step strictly decreasing. -/
def instrWeight : Instr → Nat
  | .LOAD_GLOBAL _ => 4
  | _ => 1

def codeWeight (l : List Instr) : Nat :=
  (l.map instrWeight).sum

theorem one_le_instrWeight (i : Instr) : 1 ≤ instrWeight i := by
  cases i <;> simp [instrWeight]

theorem codeWeight_cons_lt (i : Instr) (rest : List Instr) :
    codeWeight rest < codeWeight (i :: rest) := by
  have := one_le_instrWeight i
  simp only [codeWeight, List.map_cons, List.sum_cons]
  omega

theorem codeWeight_global_step (v : Value) (n : String) (rest : List Instr) :
    codeWeight (.LOAD_CONST v :: .BINARY_SUBSCR :: rest) <
      codeWeight (.LOAD_GLOBAL n :: rest) := by
  simp only [codeWeight, List.map_cons, List.sum_cons, instrWeight]
  omega

/-- The `name_map` lookup with `KeyError` fallback of `_rename_local_vars`
(lines 316-320): use the mapped name if present, otherwise generate a
fresh one and record it. -/
def fastName (m : List (String × String)) (ctr : Nat) (n : String) :
    String × List (String × String) × Nat :=
  match dlookup m n with
  | some s => (s, m, ctr)
  | none =>
    let p := new_name ctr (some n)
    (p.1, (n, p.1) :: m, p.2)

/-- The `for (i,(op,arg)) in enumerate(code.code)` loop of
`_rename_local_vars` (lines 314-327).  The Python loop mutates the list
it iterates: a `LOAD_GLOBAL` at index `i` is overwritten with
`BINARY_SUBSCR` and two `LOAD_CONST` entries are inserted at `i`, after
which the iterator resumes at index `i + 1`, i.e. at the first inserted
constant; this is modelled by pushing the two inserted entries onto the
unprocessed suffix.  Closure variables and by-name lookups raise
`ValueError` (line 327).  The explicit fuel only serves to make the
recursion structural: each step strictly decreases `codeWeight` of the
suffix, so the fuel `codeWeight code + 1` the wrapper supplies is never
exhausted. -/
def renameLoop (g : Value) : Nat → List Instr → List (String × String) → Nat →
    Except Unit (List Instr × List (String × String) × Nat)
  | 0, _, _, _ => .error ()
  | _ + 1, [], m, ctr => .ok ([], m, ctr)
  | fuel + 1, .LOAD_FAST n :: rest, m, ctr =>
    let p := fastName m ctr n
    match renameLoop g fuel rest p.2.1 p.2.2 with
    | .error e => .error e
    | .ok (out, m2, c2) => .ok (.LOAD_FAST p.1 :: out, m2, c2)
  | fuel + 1, .STORE_FAST n :: rest, m, ctr =>
    let p := fastName m ctr n
    match renameLoop g fuel rest p.2.1 p.2.2 with
    | .error e => .error e
    | .ok (out, m2, c2) => .ok (.STORE_FAST p.1 :: out, m2, c2)
  | fuel + 1, .DELETE_FAST n :: rest, m, ctr =>
    let p := fastName m ctr n
    match renameLoop g fuel rest p.2.1 p.2.2 with
    | .error e => .error e
    | .ok (out, m2, c2) => .ok (.DELETE_FAST p.1 :: out, m2, c2)
  | fuel + 1, .LOAD_GLOBAL n :: rest, m, ctr =>
    match renameLoop g fuel (.LOAD_CONST (.str n) :: .BINARY_SUBSCR :: rest) m ctr with
    | .error e => .error e
    | .ok (out, m2, c2) => .ok (.LOAD_CONST g :: out, m2, c2)
  | _ + 1, .LOAD_DEREF _ :: _, _, _ => .error ()
  | _ + 1, .STORE_DEREF _ :: _, _, _ => .error ()
  | _ + 1, .LOAD_NAME _ :: _, _, _ => .error ()
  | _ + 1, .STORE_NAME _ :: _, _, _ => .error ()
  | _ + 1, .DELETE_NAME _ :: _, _, _ => .error ()
  | fuel + 1, i :: rest, m, ctr =>
    match renameLoop g fuel rest m ctr with
    | .error e => .error e
    | .ok (out, m2, c2) => .ok (i :: out, m2, c2)

/-- The initial `name_map` construction of `_rename_local_vars`
(lines 311-313): one fresh name per entry of `co_varnames`. -/
def initNameMap : List String → List (String × String) → Nat →
    List (String × String) × Nat
  | [], m, ctr => (m, ctr)
  | nm :: rest, m, ctr =>
    let p := new_name ctr (some nm)
    initNameMap rest ((nm, p.1) :: m) p.2

/-- `_rename_local_vars(code, func)`: `g` stands for the constant value
`func.func_globals` that gets planted in front of each rewritten global
load, `varnames` for `code.to_code().co_varnames`, and `ctr` for the state
of the shared `_ids` generator. -/
def rename_local_vars (code : List Instr) (varnames : List String) (g : Value)
    (ctr : Nat) : Except Unit (List Instr × List (String × String) × Nat) :=
  let p := initNameMap varnames [] ctr
  renameLoop g (codeWeight code + 1) code p.1 p.2

/-- What the specification says one instruction becomes under
`_rename_local_vars`, phrased against the returned (final) name map:
a `LOAD_GLOBAL` becomes globals-dict constant, name constant,
`BINARY_SUBSCR`; the three FAST opcodes have their operand renamed
through the map; everything else is untouched. -/
def renameSpecStep (g : Value) (m : List (String × String)) : Instr → List Instr
  | .LOAD_GLOBAL n => [.LOAD_CONST g, .LOAD_CONST (.str n), .BINARY_SUBSCR]
  | .LOAD_FAST n => [.LOAD_FAST ((dlookup m n).getD n)]
  | .STORE_FAST n => [.STORE_FAST ((dlookup m n).getD n)]
  | .DELETE_FAST n => [.DELETE_FAST ((dlookup m n).getD n)]
  | i => [i]

/-- The specification-side transform of a whole instruction list. -/
def renameSpec (g : Value) (m : List (String × String)) (code : List Instr) :
    List Instr :=
  (code.map (renameSpecStep g m)).flatten

/-- One name map extends another: every binding visible in the first is
visible unchanged in the second.  The rename loop only adds bindings for
previously-unseen keys, so the map at any point extends all earlier maps. -/
def MapExt (m m2 : List (String × String)) : Prop :=
  ∀ k v, dlookup m k = some v → dlookup m2 k = some v

theorem mapExt_refl (m : List (String × String)) : MapExt m m :=
  fun _ _ h => h

theorem fastName_ext (m : List (String × String)) (ctr : Nat) (n : String) :
    MapExt m (fastName m ctr n).2.1 := by
  unfold fastName
  cases hd : dlookup m n with
  | some s => exact mapExt_refl m
  | none =>
    intro k v hk
    simp only [dlookup]
    by_cases hkn : n = k
    · rw [hkn] at hd; rw [hd] at hk; exact absurd hk (by simp)
    · simp [hkn, hk]

theorem fastName_lookup (m : List (String × String)) (ctr : Nat) (n : String) :
    dlookup (fastName m ctr n).2.1 n = some (fastName m ctr n).1 := by
  unfold fastName
  cases hd : dlookup m n with
  | some s => simpa using hd
  | none => simp [dlookup]

theorem mapExt_trans {m1 m2 m3 : List (String × String)}
    (h12 : MapExt m1 m2) (h23 : MapExt m2 m3) : MapExt m1 m3 :=
  fun k v h => h23 k v (h12 k v h)

/-- Soundness of the loop against the specification transform: a
successful run produces exactly the concatenation of the per-instruction
spec steps taken with respect to the final name map, and the final map
extends the initial one. -/
theorem renameLoop_spec (g : Value) (fuel : Nat) (code : List Instr)
    (m : List (String × String)) (ctr : Nat) :
    ∀ out m2 c2, renameLoop g fuel code m ctr = .ok (out, m2, c2) →
      out = renameSpec g m2 code ∧ MapExt m m2 := by
  induction fuel, code, m, ctr using renameLoop.induct g with
  | case1 code m ctr =>
    intro out m2 c2 h
    simp only [renameLoop] at h
    exact absurd h (fun hh => Except.noConfusion hh)
  | case2 fuel m ctr =>
    intro out m2 c2 h
    simp only [renameLoop, Except.ok.injEq, Prod.mk.injEq] at h
    obtain ⟨h1, h2, h3⟩ := h
    subst h1; subst h2
    exact ⟨by simp [renameSpec], mapExt_refl m⟩
  | case3 fuel n rest m ctr p e heq ih =>
    intro out m2 c2 h
    have hp : p = fastName m ctr n := rfl
    rw [hp] at heq
    simp only [renameLoop, heq] at h
    exact absurd h (fun hh => Except.noConfusion hh)
  | case4 fuel n rest m ctr p out0 m20 c20 heq ih =>
    intro out m2 c2 h
    have hp : p = fastName m ctr n := rfl
    rw [hp] at heq ih
    simp only [renameLoop, heq, Except.ok.injEq, Prod.mk.injEq] at h
    obtain ⟨h1, h2, h3⟩ := h
    subst h1
    subst h2
    obtain ⟨hout, hext⟩ := ih out0 m20 c20 heq
    refine ⟨?_, mapExt_trans (fastName_ext m ctr n) hext⟩
    have hl : dlookup m20 n = some (fastName m ctr n).1 :=
      hext n _ (fastName_lookup m ctr n)
    simp [renameSpec, renameSpecStep, hl, hout]
  | case5 fuel n rest m ctr p e heq ih =>
    intro out m2 c2 h
    have hp : p = fastName m ctr n := rfl
    rw [hp] at heq
    simp only [renameLoop, heq] at h
    exact absurd h (fun hh => Except.noConfusion hh)
  | case6 fuel n rest m ctr p out0 m20 c20 heq ih =>
    intro out m2 c2 h
    have hp : p = fastName m ctr n := rfl
    rw [hp] at heq ih
    simp only [renameLoop, heq, Except.ok.injEq, Prod.mk.injEq] at h
    obtain ⟨h1, h2, h3⟩ := h
    subst h1
    subst h2
    obtain ⟨hout, hext⟩ := ih out0 m20 c20 heq
    refine ⟨?_, mapExt_trans (fastName_ext m ctr n) hext⟩
    have hl : dlookup m20 n = some (fastName m ctr n).1 :=
      hext n _ (fastName_lookup m ctr n)
    simp [renameSpec, renameSpecStep, hl, hout]
  | case7 fuel n rest m ctr p e heq ih =>
    intro out m2 c2 h
    have hp : p = fastName m ctr n := rfl
    rw [hp] at heq
    simp only [renameLoop, heq] at h
    exact absurd h (fun hh => Except.noConfusion hh)
  | case8 fuel n rest m ctr p out0 m20 c20 heq ih =>
    intro out m2 c2 h
    have hp : p = fastName m ctr n := rfl
    rw [hp] at heq ih
    simp only [renameLoop, heq, Except.ok.injEq, Prod.mk.injEq] at h
    obtain ⟨h1, h2, h3⟩ := h
    subst h1
    subst h2
    obtain ⟨hout, hext⟩ := ih out0 m20 c20 heq
    refine ⟨?_, mapExt_trans (fastName_ext m ctr n) hext⟩
    have hl : dlookup m20 n = some (fastName m ctr n).1 :=
      hext n _ (fastName_lookup m ctr n)
    simp [renameSpec, renameSpecStep, hl, hout]
  | case9 fuel n rest m ctr e heq ih =>
    intro out m2 c2 h
    simp only [renameLoop, heq] at h
    exact absurd h (fun hh => Except.noConfusion hh)
  | case10 fuel n rest m ctr out0 m20 c20 heq ih =>
    intro out m2 c2 h
    simp only [renameLoop, heq, Except.ok.injEq, Prod.mk.injEq] at h
    obtain ⟨h1, h2, h3⟩ := h
    subst h1
    subst h2
    obtain ⟨hout, hext⟩ := ih out0 m20 c20 heq
    refine ⟨?_, hext⟩
    simp [renameSpec, renameSpecStep] at hout ⊢
    exact hout
  | case11 fuel n tail m ctr =>
    intro out m2 c2 h
    simp only [renameLoop] at h
    exact absurd h (fun hh => Except.noConfusion hh)
  | case12 fuel n tail m ctr =>
    intro out m2 c2 h
    simp only [renameLoop] at h
    exact absurd h (fun hh => Except.noConfusion hh)
  | case13 fuel n tail m ctr =>
    intro out m2 c2 h
    simp only [renameLoop] at h
    exact absurd h (fun hh => Except.noConfusion hh)
  | case14 fuel n tail m ctr =>
    intro out m2 c2 h
    simp only [renameLoop] at h
    exact absurd h (fun hh => Except.noConfusion hh)
  | case15 fuel n tail m ctr =>
    intro out m2 c2 h
    simp only [renameLoop] at h
    exact absurd h (fun hh => Except.noConfusion hh)
  | case16 fuel i rest m ctr hn1 hn2 hn3 hn4 hn5 hn6 hn7 hn8 hn9 e heq ih =>
    intro out m2 c2 h
    cases i <;>
      first
        | exact absurd rfl (fun hh => hn1 _ hh)
        | exact absurd rfl (fun hh => hn2 _ hh)
        | exact absurd rfl (fun hh => hn3 _ hh)
        | exact absurd rfl (fun hh => hn4 _ hh)
        | exact absurd rfl (fun hh => hn5 _ hh)
        | exact absurd rfl (fun hh => hn6 _ hh)
        | exact absurd rfl (fun hh => hn7 _ hh)
        | exact absurd rfl (fun hh => hn8 _ hh)
        | exact absurd rfl (fun hh => hn9 _ hh)
        | (simp only [renameLoop, heq] at h
           exact absurd h (fun hh => Except.noConfusion hh))
  | case17 fuel i rest m ctr hn1 hn2 hn3 hn4 hn5 hn6 hn7 hn8 hn9 out0 m20 c20 heq ih =>
    intro out m2 c2 h
    have hstep : renameSpecStep g m2 i = [i] := by
      cases i <;>
        first
          | rfl
          | exact absurd rfl (fun hh => hn1 _ hh)
          | exact absurd rfl (fun hh => hn2 _ hh)
          | exact absurd rfl (fun hh => hn3 _ hh)
          | exact absurd rfl (fun hh => hn4 _ hh)
    have hred : renameLoop g (fuel + 1) (i :: rest) m ctr =
        match renameLoop g fuel rest m ctr with
        | .error e => .error e
        | .ok (out, m2, c2) => .ok (i :: out, m2, c2) := by
      cases i <;>
        first
          | exact absurd rfl (fun hh => hn1 _ hh)
          | exact absurd rfl (fun hh => hn2 _ hh)
          | exact absurd rfl (fun hh => hn3 _ hh)
          | exact absurd rfl (fun hh => hn4 _ hh)
          | exact absurd rfl (fun hh => hn5 _ hh)
          | exact absurd rfl (fun hh => hn6 _ hh)
          | exact absurd rfl (fun hh => hn7 _ hh)
          | exact absurd rfl (fun hh => hn8 _ hh)
          | exact absurd rfl (fun hh => hn9 _ hh)
          | simp only [renameLoop]
    rw [hred, heq] at h
    simp only [Except.ok.injEq, Prod.mk.injEq] at h
    obtain ⟨h1, h2, h3⟩ := h
    subst h1
    subst h2
    obtain ⟨hout, hext⟩ := ih out0 m20 c20 heq
    refine ⟨?_, hext⟩
    simp [renameSpec, hstep, hout]

/-- C6: `_rename_local_vars` replaces every `LOAD_GLOBAL name` by the
three instructions `LOAD_CONST func.func_globals`, `LOAD_CONST name`,
`BINARY_SUBSCR` (in that order), and renames every `LOAD_FAST`,
`STORE_FAST` and `DELETE_FAST` operand according to the name map it
returns; every other instruction is left unchanged.  Stated as: any
successful run of the embedded source loop produces exactly the
specification transform `renameSpec` taken with the returned map. -/
theorem claim_C6_rename_matches_spec (code : List Instr) (varnames : List String)
    (g : Value) (ctr : Nat) (out : List Instr) (m2 : List (String × String)) (c2 : Nat)
    (h : rename_local_vars code varnames g ctr = .ok (out, m2, c2)) :
    out = renameSpec g m2 code :=
  (renameLoop_spec g (codeWeight code + 1) code (initNameMap varnames [] ctr).1
    (initNameMap varnames [] ctr).2 out m2 c2 h).1

/-- Witness for C6 at a concrete input: a body with one global load, one
already-mapped local, one unmapped local and an untouched instruction. -/
theorem claim_C6_rename_matches_spec_witness :
    rename_local_vars
        [.LOAD_GLOBAL "G", .LOAD_FAST "x", .STORE_FAST "tmp", .RETURN_VALUE]
        ["x"] (.gdict 0) 0 =
      .ok ([.LOAD_CONST (.gdict 0), .LOAD_CONST (.str "G"), .BINARY_SUBSCR,
            .LOAD_FAST "_inlined_var1_x", .STORE_FAST "_inlined_var2_tmp",
            .RETURN_VALUE],
           [("tmp", "_inlined_var2_tmp"), ("x", "_inlined_var1_x")], 2) ∧
    [Instr.LOAD_CONST (.gdict 0), .LOAD_CONST (.str "G"), .BINARY_SUBSCR,
     .LOAD_FAST "_inlined_var1_x", .STORE_FAST "_inlined_var2_tmp",
     .RETURN_VALUE] =
      renameSpec (.gdict 0)
        [("tmp", "_inlined_var2_tmp"), ("x", "_inlined_var1_x")]
        [.LOAD_GLOBAL "G", .LOAD_FAST "x", .STORE_FAST "tmp", .RETURN_VALUE] :=
  ⟨rfl,
   claim_C6_rename_matches_spec
     [.LOAD_GLOBAL "G", .LOAD_FAST "x", .STORE_FAST "tmp", .RETURN_VALUE]
     ["x"] (.gdict 0) 0
     [.LOAD_CONST (.gdict 0), .LOAD_CONST (.str "G"), .BINARY_SUBSCR,
      .LOAD_FAST "_inlined_var1_x", .STORE_FAST "_inlined_var2_tmp",
      .RETURN_VALUE]
     [("tmp", "_inlined_var2_tmp"), ("x", "_inlined_var1_x")] 2 rfl⟩

/-- A real instruction, as opposed to the `LabelMark`/`SetLineno` pseudo
entries that only exist in the byteplay view. -/
def isReal : Instr → Bool
  | .LabelMark _ => false
  | .SetLineno _ => false
  | _ => true

/-- CPython 2 opcode numbers for the instructions of the model; the two
pseudo entries get values above any byte so that comparing them with a
bytecode byte (as the second assertion of `make_code_from_frame` does with
a byteplay `Label` object) is always false. -/
def opcodeOf : Instr → Nat
  | .LOAD_CONST _ => 100
  | .LOAD_FAST _ => 124
  | .STORE_FAST _ => 125
  | .DELETE_FAST _ => 126
  | .LOAD_GLOBAL _ => 116
  | .LOAD_NAME _ => 101
  | .STORE_NAME _ => 90
  | .DELETE_NAME _ => 91
  | .LOAD_DEREF _ => 136
  | .STORE_DEREF _ => 137
  | .LOAD_ATTR _ => 106
  | .BINARY_ADD => 23
  | .BINARY_SUBSCR => 25
  | .POP_TOP => 1
  | .RETURN_VALUE => 83
  | .JUMP_ABSOLUTE _ => 113
  | .CALL_FUNCTION _ => 131
  | .LabelMark _ => 1000
  | .SetLineno _ => 1001

/-- Encoded size in bytes: one byte for an opcode below `HAVE_ARGUMENT`
(90), three bytes (opcode plus 16-bit operand) otherwise — exactly the
case split of the offset walk in `make_code_from_frame` (lines 108-111). -/
def instrSize (i : Instr) : Nat :=
  if opcodeOf i < 90 then 1 else 3

/-- Byte encoding of one instruction.  The operand bytes are encoded as
zeros: nothing in `make_code_from_frame` ever reads an operand byte (the
offset walk only inspects bytes at instruction starts, and the final
assertion compares the opcode byte at `f_lasti`). -/
def encode (i : Instr) : List Nat :=
  if opcodeOf i < 90 then [opcodeOf i] else [opcodeOf i, 0, 0]

/-- The raw `co_code` byte string of a code object given as a list of raw
instructions. -/
def assemble : List Instr → List Nat
  | [] => []
  | i :: rest => encode i ++ assemble rest

/-- Byte offset of the instruction at index `k` in a raw instruction
list: the sum of the encoded sizes of the instructions before it. -/
def offsetOf (raw : List Instr) (k : Nat) : Nat :=
  ((raw.take k).map instrSize).sum

/-- The byteplay view `Code.from_code` builds from raw code: a `SetLineno`
entry before every instruction whose offset starts a source line, and a
label entry before every instruction whose offset is a jump target. -/
def fromCodeAux (labels lineStarts : List Nat) : List Instr → Nat → List Instr
  | [], _ => []
  | ins :: rest, off =>
    (if off ∈ lineStarts then [.SetLineno off] else []) ++
    (if off ∈ labels then [.LabelMark (.atOffset off)] else []) ++
    ins :: fromCodeAux labels lineStarts rest (off + instrSize ins)

/-- `byteplay.Code.from_code`, with the label offsets (as `dis.findlabels`
computes them) and line start offsets supplied as parameters. -/
def from_code (raw : List Instr) (labels lineStarts : List Nat) : List Instr :=
  fromCodeAux labels lineStarts raw 0

/-- The `while i < frame.f_lasti` offset walk of `make_code_from_frame`
(lines 105-111): count one instruction per step, advancing by one byte for
opcodes below `HAVE_ARGUMENT` and three otherwise.  The fuel only makes
the recursion structural; every step advances `i` by at least one byte, so
the `lasti + 1` supplied by the wrapper is never exhausted. -/
def walkLoop (bytes : List Nat) (lasti : Nat) : Nat → Nat → Nat → Nat × Nat
  | 0, i, offset => (i, offset)
  | fuel + 1, i, offset =>
    if i < lasti then
      walkLoop bytes lasti fuel (i + (if bytes.getD i 0 < 90 then 1 else 3)) (offset + 1)
    else (i, offset)

/-- `make_code_from_frame(frame)` for a frame whose code object has raw
instruction list `raw`, label-offset table `labels`, line starts
`lineStarts`, and whose `f_lasti` is `lasti`.  Returns `none` when either
of the two assertions fails (or the final index is out of range), and
otherwise the `SetLineno`-stripped byteplay code list together with the
computed instruction offset. -/
def make_code_from_frame (raw : List Instr) (labels lineStarts : List Nat)
    (lasti : Nat) : Option (List Instr × Nat) :=
  let bytes := assemble raw
  let p := walkLoop bytes lasti (lasti + 1) 0 0
  if p.1 = lasti then
    let off := p.2 + (labels.filter (fun j => j ≤ lasti)).length
    let c := stripSetLineno (from_code raw labels lineStarts)
    match c.get? off with
    | some ins => if opcodeOf ins = bytes.getD lasti 0 then some (c, off) else none
    | none => none
  else none

theorem encode_length (i : Instr) : (encode i).length = instrSize i := by
  unfold encode instrSize
  split <;> rfl

theorem one_le_instrSize (i : Instr) : 1 ≤ instrSize i := by
  unfold instrSize
  split <;> omega

theorem offsetOf_zero (raw : List Instr) : offsetOf raw 0 = 0 := by
  simp [offsetOf]

theorem offsetOf_cons_succ (i : Instr) (rest : List Instr) (k : Nat) :
    offsetOf (i :: rest) (k + 1) = instrSize i + offsetOf rest k := by
  simp [offsetOf, List.take_succ_cons]

theorem offsetOf_succ_get (raw : List Instr) (k : Nat) (ins : Instr)
    (h : raw.get? k = some ins) :
    offsetOf raw (k + 1) = offsetOf raw k + instrSize ins := by
  induction raw generalizing k with
  | nil => simp at h
  | cons i rest ih =>
    cases k with
    | zero =>
      simp only [List.get?_cons_zero, Option.some.injEq] at h
      subst h
      rw [offsetOf_cons_succ, offsetOf_zero, offsetOf_zero]
      omega
    | succ k =>
      simp only [List.get?_cons_succ] at h
      rw [offsetOf_cons_succ, offsetOf_cons_succ, ih k h]
      omega

theorem offsetOf_lt (raw : List Instr) (j k : Nat) (hjk : j < k) (hk : k ≤ raw.length) :
    offsetOf raw j < offsetOf raw k := by
  induction raw generalizing j k with
  | nil => simp at hk; omega
  | cons i rest ih =>
    cases k with
    | zero => omega
    | succ k =>
      cases j with
      | zero =>
        rw [offsetOf_zero, offsetOf_cons_succ]
        have := one_le_instrSize i
        omega
      | succ j =>
        rw [offsetOf_cons_succ, offsetOf_cons_succ]
        have := ih j k (by omega) (by simpa using hk)
        omega

theorem offsetOf_le_of_le (raw : List Instr) (j k : Nat) (hjk : j ≤ k)
    (hk : k ≤ raw.length) : offsetOf raw j ≤ offsetOf raw k := by
  rcases Nat.eq_or_lt_of_le hjk with h | h
  · subst h; exact le_refl _
  · exact le_of_lt (offsetOf_lt raw j k h hk)

theorem le_offsetOf (raw : List Instr) (k : Nat) (hk : k ≤ raw.length) :
    k ≤ offsetOf raw k := by
  induction raw generalizing k with
  | nil => simp at hk; omega
  | cons i rest ih =>
    cases k with
    | zero => exact Nat.zero_le _
    | succ k =>
      rw [offsetOf_cons_succ]
      have h1 := ih k (by simpa using hk)
      have h2 := one_le_instrSize i
      omega

theorem assemble_getD (raw : List Instr) (k : Nat) (ins : Instr)
    (h : raw.get? k = some ins) :
    (assemble raw).getD (offsetOf raw k) 0 = opcodeOf ins := by
  induction raw generalizing k with
  | nil => simp at h
  | cons i rest ih =>
    cases k with
    | zero =>
      simp only [List.get?_cons_zero, Option.some.injEq] at h
      subst h
      rw [offsetOf_zero]
      show (encode i ++ assemble rest).getD 0 0 = opcodeOf i
      unfold encode
      split <;> rfl
    | succ k =>
      simp only [List.get?_cons_succ] at h
      rw [offsetOf_cons_succ]
      show (encode i ++ assemble rest).getD (instrSize i + offsetOf rest k) 0 = opcodeOf ins
      rw [List.getD_append_right _ _ _ _ (by rw [encode_length]; omega)]
      rw [encode_length]
      have heq : instrSize i + offsetOf rest k - instrSize i = offsetOf rest k := by omega
      rw [heq]
      exact ih k h

theorem walkLoop_exact (raw : List Instr) (k : Nat) (hk : k ≤ raw.length) :
    ∀ fuel j, j ≤ k → k - j ≤ fuel →
      walkLoop (assemble raw) (offsetOf raw k) fuel (offsetOf raw j) j =
        (offsetOf raw k, k) := by
  intro fuel
  induction fuel with
  | zero =>
    intro j hj hf
    have hjk : j = k := by omega
    subst hjk
    rfl
  | succ f ih =>
    intro j hj hf
    rcases Nat.eq_or_lt_of_le hj with hjk | hjk
    · subst hjk
      show walkLoop _ _ (f + 1) _ _ = _
      unfold walkLoop
      simp
    · have hjlen : j < raw.length := by omega
      have hins := List.get?_eq_get hjlen
      unfold walkLoop
      rw [if_pos (offsetOf_lt raw j k hjk hk)]
      rw [assemble_getD raw j _ hins]
      have hstep : offsetOf raw j + (if opcodeOf (raw.get ⟨j, hjlen⟩) < 90 then 1 else 3) =
          offsetOf raw (j + 1) := by
        rw [offsetOf_succ_get raw j _ hins]
        unfold instrSize
        rfl
      rw [hstep]
      exact ih (j + 1) (by omega) (by omega)

/-- The `SetLineno`-stripped byteplay view: only the label marks remain
interleaved with the instructions. -/
def labelView (labels : List Nat) : List Instr → Nat → List Instr
  | [], _ => []
  | ins :: rest, off =>
    (if off ∈ labels then [Instr.LabelMark (.atOffset off)] else []) ++
    ins :: labelView labels rest (off + instrSize ins)

theorem isReal_not_setLineno (i : Instr) (h : isReal i = true) :
    isSetLineno i = false := by
  cases i <;> simp [isReal, isSetLineno] at h ⊢

theorem strip_fromCodeAux (labels lineStarts : List Nat) (raw : List Instr)
    (off : Nat) (hreal : ∀ i ∈ raw, isReal i = true) :
    stripSetLineno (fromCodeAux labels lineStarts raw off) = labelView labels raw off := by
  induction raw generalizing off with
  | nil => rfl
  | cons i rest ih =>
    have hi : isSetLineno i = false :=
      isReal_not_setLineno i (hreal i (List.mem_cons_self _ _))
    have hr : ∀ x ∈ rest, isReal x = true :=
      fun x hx => hreal x (List.mem_cons_of_mem _ hx)
    have e1 : isSetLineno (Instr.SetLineno off) = true := rfl
    have e2 : ∀ l, isSetLineno (Instr.LabelMark l) = false := fun _ => rfl
    by_cases hls : off ∈ lineStarts <;> by_cases hlb : off ∈ labels <;>
      simp [fromCodeAux, labelView, stripSetLineno, List.filter_append,
        List.filter_cons, hls, hlb, e1, e2, hi, ← ih (off + instrSize i) hr]

/-- Number of label marks sitting at or before instruction index `k` in
the label view built from base offset `off`. -/
def countMarks (labels : List Nat) : List Instr → Nat → Nat → Nat
  | [], _, _ => 0
  | i :: rest, off, k =>
    (if off ∈ labels then 1 else 0) +
    (match k with
     | 0 => 0
     | k + 1 => countMarks labels rest (off + instrSize i) k)

/-- Index shift through the label view: the instruction that sits at raw
index `k` is found in the view at index `k` plus the number of marks at or
before it. -/
theorem labelView_get (labels : List Nat) (raw : List Instr) (off k : Nat)
    (ins : Instr) (h : raw.get? k = some ins) :
    (labelView labels raw off).get? (k + countMarks labels raw off k) = some ins := by
  induction raw generalizing off k with
  | nil => simp at h
  | cons i rest ih =>
    cases k with
    | zero =>
      simp only [List.get?_cons_zero, Option.some.injEq] at h
      subst h
      by_cases hlb : off ∈ labels <;> simp [labelView, countMarks, hlb]
    | succ k =>
      simp only [List.get?_cons_succ] at h
      have := ih (off + instrSize i) k h
      by_cases hlb : off ∈ labels
      · have hidx : k + 1 + countMarks labels (i :: rest) off (k + 1) =
            (k + countMarks labels rest (off + instrSize i) k) + 2 := by
          simp [countMarks, hlb]
          omega
        rw [hidx]
        simpa [labelView, hlb] using this
      · have hidx : k + 1 + countMarks labels (i :: rest) off (k + 1) =
            (k + countMarks labels rest (off + instrSize i) k) + 1 := by
          simp [countMarks, hlb]
          omega
        rw [hidx]
        simpa [labelView, hlb] using this

/-- The absolute byte offsets of the instructions at indices `0 .. k`,
shifted by the base offset `off`. -/
def offsetsUpto (raw : List Instr) (off k : Nat) : List Nat :=
  (List.range (k + 1)).map fun j => off + offsetOf raw j

theorem offsetsUpto_cons (i : Instr) (rest : List Instr) (off k : Nat) :
    offsetsUpto (i :: rest) off (k + 1) =
      off :: offsetsUpto rest (off + instrSize i) k := by
  unfold offsetsUpto
  rw [List.range_succ_eq_map]
  simp only [List.map_cons, List.map_map, offsetOf_zero, Nat.add_zero]
  refine congrArg (off :: ·) ?_
  apply List.map_congr_left
  intro j hj
  simp only [Function.comp_apply]
  rw [offsetOf_cons_succ]
  omega

theorem offsetsUpto_zero (i : Instr) (rest : List Instr) (off : Nat) :
    offsetsUpto (i :: rest) off 0 = [off] := by
  unfold offsetsUpto
  have h1 : List.range 1 = [0] := rfl
  simp [h1, offsetOf_zero]

theorem countMarks_nil_labels (raw : List Instr) (off k : Nat) :
    countMarks [] raw off k = 0 := by
  induction raw generalizing off k with
  | nil => rfl
  | cons i rest ih =>
    cases k with
    | zero => simp [countMarks]
    | succ k => simp [countMarks, ih]

theorem countMarks_lt_base (raw : List Instr) (off k l : Nat) (h : l < off) :
    countMarks [l] raw off k = 0 := by
  induction raw generalizing off k with
  | nil => rfl
  | cons i rest ih =>
    have hne : off ∉ [l] := by simp; omega
    cases k with
    | zero =>
      simp [countMarks, hne]
      omega
    | succ k =>
      have := one_le_instrSize i
      simp [countMarks, hne, ih (off + instrSize i) k (by omega)]
      omega

theorem countMarks_singleton (raw : List Instr) (off k l : Nat)
    (hk : k < raw.length) :
    countMarks [l] raw off k = if l ∈ offsetsUpto raw off k then 1 else 0 := by
  induction raw generalizing off k with
  | nil => simp at hk
  | cons i rest ih =>
    cases k with
    | zero =>
      rw [offsetsUpto_zero]
      by_cases hoff : off = l
      · subst hoff
        simp [countMarks]
      · have hlo : ¬ l = off := fun hh => hoff hh.symm
        simp [countMarks, hoff, hlo]
    | succ k =>
      rw [offsetsUpto_cons]
      have hk2 : k < rest.length := by simpa using hk
      by_cases hoff : off = l
      · subst hoff
        simp [countMarks, countMarks_lt_base rest (off + instrSize i) k off
          (by have := one_le_instrSize i; omega)]
      · have hne : off ∉ [l] := by simp; omega
        have hmem : (l ∈ off :: offsetsUpto rest (off + instrSize i) k) ↔
            (l ∈ offsetsUpto rest (off + instrSize i) k) := by
          simp
          intro hl
          omega
        rw [if_congr hmem rfl rfl]
        simp [countMarks, hne, ih (off + instrSize i) k hk2]
        exact hoff

theorem countMarks_cons_labels (raw : List Instr) (off k l : Nat) (L : List Nat)
    (hl : l ∉ L) :
    countMarks (l :: L) raw off k = countMarks [l] raw off k + countMarks L raw off k := by
  induction raw generalizing off k with
  | nil => rfl
  | cons i rest ih =>
    have hind : (if off ∈ l :: L then 1 else 0) =
        (if off ∈ [l] then 1 else 0) + (if off ∈ L then 1 else 0) := by
      by_cases h1 : off = l
      · subst h1
        simp [hl]
      · by_cases h2 : off ∈ L <;> simp [h1, h2]
    cases k with
    | zero => simp only [countMarks, hind]; omega
    | succ k =>
      simp only [countMarks, hind, ih (off + instrSize i) k]
      omega

theorem mem_offsetsUpto_iff (raw : List Instr) (k l j0 : Nat)
    (hj0 : j0 < raw.length) (hl : l = offsetOf raw j0) (hk : k < raw.length) :
    l ∈ offsetsUpto raw 0 k ↔ l ≤ offsetOf raw k := by
  constructor
  · intro hmem
    simp only [offsetsUpto, List.mem_map, List.mem_range] at hmem
    obtain ⟨j, hj, hje⟩ := hmem
    have : offsetOf raw j ≤ offsetOf raw k :=
      offsetOf_le_of_le raw j k (by omega) (by omega)
    omega
  · intro hle
    by_cases hjk : j0 ≤ k
    · simp only [offsetsUpto, List.mem_map, List.mem_range]
      exact ⟨j0, by omega, by omega⟩
    · exfalso
      have : offsetOf raw k < offsetOf raw j0 :=
        offsetOf_lt raw k j0 (by omega) (by omega)
      omega

theorem countMarks_eq_filter (labels : List Nat) (raw : List Instr) (k : Nat)
    (hlab : ∀ l ∈ labels, ∃ j, j < raw.length ∧ l = offsetOf raw j)
    (hnd : labels.Nodup) (hk : k < raw.length) :
    countMarks labels raw 0 k =
      (labels.filter (fun l => l ≤ offsetOf raw k)).length := by
  induction labels with
  | nil => simp [countMarks_nil_labels]
  | cons l L ih =>
    have hlL : l ∉ L := (List.nodup_cons.mp hnd).1
    have hndL : L.Nodup := (List.nodup_cons.mp hnd).2
    obtain ⟨j0, hj0, hlj0⟩ := hlab l (List.mem_cons_self _ _)
    have hlabL : ∀ x ∈ L, ∃ j, j < raw.length ∧ x = offsetOf raw j :=
      fun x hx => hlab x (List.mem_cons_of_mem _ hx)
    rw [countMarks_cons_labels raw 0 k l L hlL,
      countMarks_singleton raw 0 k l hk, ih hlabL hndL]
    rw [if_congr (mem_offsetsUpto_iff raw k l j0 hj0 hlj0 hk) rfl rfl]
    by_cases hle : l ≤ offsetOf raw k <;> simp [List.filter_cons, hle] <;> omega

/-- C8: for every frame whose `f_lasti` lies on an instruction boundary of
its code object, `make_code_from_frame` passes both of its assertions and
returns an index into the `SetLineno`-stripped byteplay instruction list
at which the entry is exactly the instruction located at byte offset
`f_lasti` in the raw bytecode.  The hypotheses state well-formedness of
the code object: the raw list holds real instructions, the label table (as
`dis.findlabels` returns it) lists distinct instruction-boundary offsets,
and `f_lasti` is the offset of the instruction at index `k`. -/
theorem claim_C8_make_code_from_frame_exact (raw : List Instr)
    (labels lineStarts : List Nat) (k : Nat) (ins : Instr)
    (hreal : ∀ i ∈ raw, isReal i = true)
    (hlab : ∀ l ∈ labels, ∃ j, j < raw.length ∧ l = offsetOf raw j)
    (hnd : labels.Nodup)
    (hk : raw.get? k = some ins) :
    ∃ c off, make_code_from_frame raw labels lineStarts (offsetOf raw k) =
        some (c, off) ∧ c.get? off = some ins := by
  have hklen : k < raw.length := by
    by_contra hc
    rw [List.get?_eq_none.mpr (by omega)] at hk
    exact Option.noConfusion hk
  have hwalk : walkLoop (assemble raw) (offsetOf raw k) (offsetOf raw k + 1) 0 0 =
      (offsetOf raw k, k) := by
    have hz := offsetOf_zero raw
    have := walkLoop_exact raw k (le_of_lt hklen) (offsetOf raw k + 1) 0
      (Nat.zero_le k) (by have := le_offsetOf raw k (le_of_lt hklen); omega)
    rw [hz] at this
    exact this
  have hstrip : stripSetLineno (from_code raw labels lineStarts) =
      labelView labels raw 0 :=
    strip_fromCodeAux labels lineStarts raw 0 hreal
  have hcount := countMarks_eq_filter labels raw k hlab hnd hklen
  have hview := labelView_get labels raw 0 k ins hk
  have hbyte := assemble_getD raw k ins hk
  have hentry : (stripSetLineno (from_code raw labels lineStarts)).get?
      (k + (labels.filter (fun l => l ≤ offsetOf raw k)).length) = some ins := by
    rw [hstrip, ← hcount]
    exact hview
  refine ⟨stripSetLineno (from_code raw labels lineStarts),
    k + (labels.filter (fun l => l ≤ offsetOf raw k)).length, ?_, hentry⟩
  simp only [make_code_from_frame]
  rw [hwalk]
  rw [if_pos rfl]
  rw [hentry]
  simp [hbyte]
  rw [List.getD_eq_getElem?_getD] at hbyte
  exact hbyte.symm

/-- Witness for C8 at a concrete code object: three instructions, a
jump target (hence a label) at offset 0, a line start at offset 0, and
the frame stopped on the instruction at index 2 (byte offset 6). -/
theorem claim_C8_make_code_from_frame_exact_witness :
    make_code_from_frame
        [.LOAD_GLOBAL "f", .JUMP_ABSOLUTE (.atOffset 0), .RETURN_VALUE]
        [0] [0] 6 =
      some ([.LabelMark (.atOffset 0), .LOAD_GLOBAL "f",
             .JUMP_ABSOLUTE (.atOffset 0), .RETURN_VALUE], 3) ∧
    [Instr.LabelMark (.atOffset 0), .LOAD_GLOBAL "f",
     .JUMP_ABSOLUTE (.atOffset 0), .RETURN_VALUE].get? 3 =
      some .RETURN_VALUE := by
  have h := claim_C8_make_code_from_frame_exact
    [.LOAD_GLOBAL "f", .JUMP_ABSOLUTE (.atOffset 0), .RETURN_VALUE]
    [0] [0] 2 .RETURN_VALUE
    (by decide)
    (fun l hl => ⟨0, by decide, by
      have hl0 : l = 0 := by simpa using hl
      subst hl0
      rfl⟩)
    (by decide) rfl
  rw [show offsetOf [Instr.LOAD_GLOBAL "f", .JUMP_ABSOLUTE (.atOffset 0),
    .RETURN_VALUE] 2 = 6 from rfl] at h
  obtain ⟨c, off, h1, h2⟩ := h
  have hco : (c, off) = ([Instr.LabelMark (.atOffset 0), .LOAD_GLOBAL "f",
      .JUMP_ABSOLUTE (.atOffset 0), .RETURN_VALUE], 3) := by
    have := h1.symm.trans (show make_code_from_frame
      [.LOAD_GLOBAL "f", .JUMP_ABSOLUTE (.atOffset 0), .RETURN_VALUE] [0] [0] 6 =
      some ([.LabelMark (.atOffset 0), .LOAD_GLOBAL "f",
             .JUMP_ABSOLUTE (.atOffset 0), .RETURN_VALUE], 3) from rfl)
    exact Option.some.inj this
  exact ⟨rfl, rfl⟩

/-- A Python function object, with the attributes `atinline` reads or
writes: its identity (`fid`, standing for object identity), the byteplay
view of `func_code`, `co_varnames` and `co_argcount` of that code,
`func_defaults`, `func_globals` (an association list), `func_name` and
`func_doc`. -/
structure FuncObj where
  fid : Nat
  code : List Instr
  varnames : List String
  argcount : Nat
  defaults : List Value
  globals : List (String × Value)
  name : String
  doc : String
deriving DecidableEq, Repr

/-- Python `list.insert(idx, x)` for an index within bounds (for an index
past the end Python appends, which `take`/`drop` also do). -/
def pyInsert (l : List Instr) (idx : Nat) (x : Instr) : List Instr :=
  l.take idx ++ x :: l.drop idx

/-- The `@inline` decorator (lines 80-95): build the byteplay view of
`func.func_code`, insert the four-instruction loader preamble at positions
0-3, store the regenerated code back into `func.func_code`, and return
`func` itself.  Mutation of the function object is modelled by returning
the updated record with the same identity. -/
def inline (func : FuncObj) : FuncObj :=
  let c0 := func.code
  let c1 := pyInsert c0 0 (.LOAD_CONST .inlinemeFn)
  let c2 := pyInsert c1 1 (.LOAD_CONST (.func func.fid))
  let c3 := pyInsert c2 2 (.CALL_FUNCTION 1)
  let c4 := pyInsert c3 3 .POP_TOP
  { func with code := c4 }

/-- C9: `inline(func)` returns the same function object, and its only
effect is on `func_code`: the new code is the four-instruction preamble
`LOAD_CONST _inlineme; LOAD_CONST func; CALL_FUNCTION 1; POP_TOP`
followed by all of the original instructions in their original order;
identity, defaults, globals, varnames, argcount, name and doc are
unchanged. -/
theorem claim_C9_inline_prepends_preamble (f : FuncObj) :
    (inline f).code =
      .LOAD_CONST .inlinemeFn :: .LOAD_CONST (.func f.fid) ::
        .CALL_FUNCTION 1 :: .POP_TOP :: f.code ∧
    (inline f).fid = f.fid ∧
    (inline f).varnames = f.varnames ∧
    (inline f).argcount = f.argcount ∧
    (inline f).defaults = f.defaults ∧
    (inline f).globals = f.globals ∧
    (inline f).name = f.name ∧
    (inline f).doc = f.doc := by
  cases hc : f.code <;>
    refine ⟨?_, rfl, rfl, rfl, rfl, rfl, rfl, rfl⟩ <;>
      simp [inline, pyInsert, hc]

/-- Normalization of one bound of a Python slice against a list length:
negative bounds wrap from the end and are clamped at zero, bounds past the
end are clamped at the length. -/
def pySliceIdx (len : Nat) (i : Int) : Nat :=
  if i < 0 then (max 0 ((len : Int) + i)).toNat else min i.toNat len

/-- Python slice assignment `l[a:b] = repl` (an empty or reversed slice
inserts at the normalized start). -/
def pySetSlice (l : List Instr) (a b : Int) (repl : List Instr) : List Instr :=
  let a2 := pySliceIdx l.length a
  let b2 := max a2 (pySliceIdx l.length b)
  l.take a2 ++ repl ++ l.drop b2

/-- Python `del l[a:b]`. -/
def pyDelSlice (l : List Instr) (a b : Int) : List Instr :=
  pySetSlice l a b []

/-- The default-argument filling loop of `_inlineme` (lines 253-259):
`for i in xrange(numargs, numreqd)`, insert `STORE_FAST` of the mapped
argument name and then `LOAD_CONST` of the default value at the front of
the source code.  The default index `i - numreqd + len(func_defaults)` is
a Python int and indexes `func_defaults` with wrap-around; a lookup
failure (`IndexError`/`KeyError`) propagates as `none`.  `i` starts at
`numargs` and `todo` counts the remaining iterations up to `numreqd`. -/
def fillLoop (func : FuncObj) (nm : List (String × String)) : Nat → Nat →
    List Instr → Option (List Instr)
  | _, 0, src => some src
  | i, todo + 1, src =>
    match func.varnames.get? i with
    | none => none
    | some argname =>
      match dlookup nm argname with
      | none => none
      | some newn =>
        match pyGet func.defaults ((i : Int) - func.argcount + func.defaults.length) with
        | none => none
        | some defval =>
          fillLoop func nm (i + 1) todo (.LOAD_CONST defval :: .STORE_FAST newn :: src)

/-- The return-value munge of `_inlineme` (lines 262-266): synthesize a
fresh label, append it after the last instruction, then replace every
`RETURN_VALUE` in the list (the appended label included in the scan) by an
absolute jump to that label. -/
def munge (src : List Instr) (freshCtr : Nat) : List Instr × Nat :=
  let l := Lbl.fresh freshCtr
  let s2 : List Instr := src ++ [.LabelMark l]
  let s3 := s2.map fun ins =>
    match ins with
    | Instr.RETURN_VALUE => Instr.JUMP_ABSOLUTE l
    | other => other
  (s3, freshCtr + 1)

/-- State threaded through the `for i in xrange(numargs)` loop of
`_inlineme`: the current source list, the current destination list, and
the fresh-label allocation counter. -/
structure LoopState where
  src : List Instr
  dest : List Instr
  fresh : Nat
deriving DecidableEq, Repr

/-- The body of `_inlineme` lines 249-270 with the nesting exactly as
written in the source: the default filling, the return munge, the splice
`dest[callsite:callsite+1] = src` and the deletion
`del dest[loadsite_start:loadsite_end]` are all inside the per-argument
loop, so they execute once per positional argument (and not at all for a
zero-argument call).  `i` is the loop index and `remaining` the number of
iterations left; an `IndexError`/`KeyError` on the argument name
propagates as `none`. -/
def inlineLoop (func : FuncObj) (nm : List (String × String)) (callsite : Nat)
    (lsStart lsEnd : Int) (numargs : Nat) : Nat → Nat → LoopState → Option LoopState
  | _, 0, st => some st
  | i, r + 1, st =>
    match func.varnames.get? i with
    | none => none
    | some argname =>
      match dlookup nm argname with
      | none => none
      | some newn =>
        match fillLoop func nm numargs (func.argcount - numargs)
            (.STORE_FAST newn :: st.src) with
        | none => none
        | some src2 =>
          let p := munge src2 st.fresh
          let dest2 := pySetSlice st.dest callsite (callsite + 1) p.1
          let dest3 := pyDelSlice dest2 lsStart lsEnd
          inlineLoop func nm callsite lsStart lsEnd numargs (i + 1) r ⟨p.1, dest3, p.2⟩

/-- Index of the byteplay label entry for `l`, which is where
`JUMP_ABSOLUTE l` transfers control. -/
def findLabelAux (l : Lbl) : List Instr → Nat → Option Nat
  | [], _ => none
  | i :: rest, k => if i = .LabelMark l then some k else findLabelAux l rest (k + 1)

def findLabel (code : List Instr) (l : Lbl) : Option Nat :=
  findLabelAux l code 0

/-- The stack-depth analysis byteplay's `Code.to_code` performs
(`_compute_stacksize`), restricted to the opcode subset of this model:
follow control flow from the given position, accumulate each
instruction's stack effect, and fail as soon as an instruction would pop
more items than the stack holds (byteplay raises
`ValueError("Popped a non-existing element")`, which propagates out of
`_inlineme` since line 273 is not guarded).  Label and `SetLineno`
entries are transparent, an unconditional jump continues at its target,
and a `RETURN_VALUE` (which needs one item) ends the path.  The fuel only
bounds the walk; it exceeds the path length of the branch-free,
forward-jumping code this development applies the check to. -/
def stackWalk (code : List Instr) : Nat → Nat → Int → Bool
  | 0, _, _ => false
  | fuel + 1, pos, depth =>
    match code.get? pos with
    | none => true
    | some ins =>
      match ins with
      | .SetLineno _ => stackWalk code fuel (pos + 1) depth
      | .LabelMark _ => stackWalk code fuel (pos + 1) depth
      | .JUMP_ABSOLUTE l =>
        match findLabel code l with
        | none => false
        | some idx => stackWalk code fuel idx depth
      | .RETURN_VALUE => decide (1 ≤ depth)
      | other =>
        match getse other with
        | none => false
        | some (p, u) =>
          if depth < (p : Int) then false
          else stackWalk code fuel (pos + 1) (depth - p + u)

/-- Whether `dest_code.to_code()` (line 273) succeeds in regenerating a
code object: its stack-size computation must not underflow. -/
def to_code_stack_ok (code : List Instr) : Bool :=
  stackWalk code (scanFuel code) 0 0

/-- Outcome of the rewriting part of `_inlineme` (lines 203-274): a
successful rewrite (the regenerated code object of the final destination
list is installed as the caller's `func_code`) carrying the final
destination and source lists and the two counters, a silent bail-out that
records the call site in the memo table, or an uncaught exception that
propagates into the caller. -/
inductive CoreOut where
  | ok (dest : List Instr) (srcFinal : List Instr) (ctr : Nat) (fresh : Nat)
  | bail
  | exc
deriving DecidableEq, Repr

/-- The rewriting core of `_inlineme` (lines 209-273), for a caller whose
`func_code` has byteplay view `callerCode` and whose frame stopped at the
`SetLineno`-stripped instruction index `callsite` (as computed by
`make_code_from_frame`): check the call site opcode (line 211), scan
backwards over the argument loads (lines 216-228), rename the callee's
locals (lines 230-236, a `ValueError` is caught and bails out), strip
line numbers and the four-instruction loader preamble (lines 239-242),
bail out on keyword arguments (lines 245-248), then run the splice loop
(lines 249-270) and regenerate the caller's code object (line 273),
whose stack-size computation raises an uncaught `ValueError` if the
rewritten list underflows the operand stack. -/
def inlinemeCore (callerCode : List Instr) (callsite : Nat) (func : FuncObj)
    (ctr fresh : Nat) : CoreOut :=
  let c := stripSetLineno callerCode
  match c.get? callsite with
  | some (.CALL_FUNCTION rawArg) =>
    match inlineme_scan c callsite rawArg with
    | .error _ => .exc
    | .ok lsEnd =>
      match attr_walk c (scanFuel c) (lsEnd - 1) with
      | .error _ => .exc
      | .ok lsStart =>
        match rename_local_vars func.code func.varnames (.gdict func.fid) ctr with
        | .error _ => .bail
        | .ok (src1, nm, ctr2) =>
          let src2 := (stripSetLineno src1).drop 4
          let numargs := rawArg % 256
          if numargs ≠ rawArg then .bail
          else
            match inlineLoop func nm callsite lsStart lsEnd numargs 0 numargs
                ⟨src2, c, fresh⟩ with
            | none => .exc
            | some st =>
              if to_code_stack_ok st.dest then .ok st.dest st.src ctr2 st.fresh
              else .exc
  | some _ => .bail
  | none => .exc

/-- Result of running bytecode on the evaluation machine: a returned
value, a raised exception (any kind), or fuel exhaustion. -/
inductive Res where
  | ok (v : Value)
  | err
  | fuelOut
deriving DecidableEq, Repr

/-- The function table and builtin namespace a program runs against. -/
structure Machine where
  funcs : List FuncObj
  builtins : List (String × Value)

/-- CPython positional-argument binding: at most `argcount` arguments,
parameters beyond the supplied ones filled from the defaults (which align
with the last parameters); a missing required argument is an error.
`i` is the parameter index and `todo` the number of parameters left. -/
def bindArgsAux (varnames : List String) (argcount : Nat) (defaults : List Value)
    (args : List Value) : Nat → Nat → Option (List (String × Value))
  | _, 0 => some []
  | i, todo + 1 =>
    match varnames.get? i with
    | none => none
    | some vn =>
      let v? : Option Value :=
        match args.get? i with
        | some v => some v
        | none =>
          if i + defaults.length < argcount then none
          else defaults.get? (i + defaults.length - argcount)
      match v? with
      | none => none
      | some v =>
        match bindArgsAux varnames argcount defaults args (i + 1) todo with
        | none => none
        | some rest => some ((vn, v) :: rest)

def bindArgs (varnames : List String) (argcount : Nat) (defaults : List Value)
    (args : List Value) : Option (List (String × Value)) :=
  if argcount < args.length then none
  else bindArgsAux varnames argcount defaults args 0 argcount

/-- Small-step evaluation machine for the bytecode subset the examples
use, following CPython semantics: `LOAD_GLOBAL` searches the frame's
globals and then the builtins; `BINARY_SUBSCR` on a function's globals
dictionary searches only that dictionary (a missing key is a `KeyError`);
`CALL_FUNCTION` with a plain positional operand binds the arguments
(stack order: last argument on top) and runs the callee's body in a fresh
frame with the callee's globals; label entries and `SetLineno` entries
are no-ops; `RETURN_VALUE` returns the top of stack.  Every step consumes
one unit of fuel.  Opcodes outside the modelled subset are errors. -/
def exec (M : Machine) : Nat → List Instr → Nat → List Value →
    List (String × Value) → List (String × Value) → Res
  | 0, _, _, _, _, _ => .fuelOut
  | fuel + 1, code, pc, stack, locals, globalsEnv =>
    match code.get? pc with
    | none => .err
    | some ins =>
      match ins with
      | .SetLineno _ => exec M fuel code (pc + 1) stack locals globalsEnv
      | .LabelMark _ => exec M fuel code (pc + 1) stack locals globalsEnv
      | .LOAD_CONST v => exec M fuel code (pc + 1) (v :: stack) locals globalsEnv
      | .LOAD_FAST n =>
        match dlookup locals n with
        | none => .err
        | some v => exec M fuel code (pc + 1) (v :: stack) locals globalsEnv
      | .STORE_FAST n =>
        match stack with
        | [] => .err
        | v :: s => exec M fuel code (pc + 1) s ((n, v) :: locals) globalsEnv
      | .LOAD_GLOBAL n =>
        match dlookup globalsEnv n with
        | some v => exec M fuel code (pc + 1) (v :: stack) locals globalsEnv
        | none =>
          match dlookup M.builtins n with
          | some v => exec M fuel code (pc + 1) (v :: stack) locals globalsEnv
          | none => .err
      | .BINARY_ADD =>
        match stack with
        | .int b :: .int a :: s =>
          exec M fuel code (pc + 1) (.int (a + b) :: s) locals globalsEnv
        | _ => .err
      | .BINARY_SUBSCR =>
        match stack with
        | .str key :: .gdict fid :: s =>
          match M.funcs.get? fid with
          | none => .err
          | some fo =>
            match dlookup fo.globals key with
            | none => .err
            | some v => exec M fuel code (pc + 1) (v :: s) locals globalsEnv
        | _ => .err
      | .POP_TOP =>
        match stack with
        | [] => .err
        | _ :: s => exec M fuel code (pc + 1) s locals globalsEnv
      | .RETURN_VALUE =>
        match stack with
        | [] => .err
        | v :: _ => .ok v
      | .JUMP_ABSOLUTE l =>
        match findLabel code l with
        | none => .err
        | some idx => exec M fuel code idx stack locals globalsEnv
      | .CALL_FUNCTION arg =>
        if 256 ≤ arg then .err
        else if stack.length < arg + 1 then .err
        else
          let args := (stack.take arg).reverse
          match stack.drop arg with
          | .func fid :: s =>
            (match M.funcs.get? fid with
             | none => .err
             | some fo =>
               match bindArgs fo.varnames fo.argcount fo.defaults args with
               | none => .err
               | some locals2 =>
                 match exec M fuel fo.code 0 [] locals2 fo.globals with
                 | .ok v => exec M fuel code (pc + 1) (v :: s) locals globalsEnv
                 | r => r)
          | _ => .err
      | _ => .err

/-- The function `def f(): return 5` before decoration. -/
def exCallee0Raw : FuncObj :=
  { fid := 0, code := [.SetLineno 1, .LOAD_CONST (.int 5), .RETURN_VALUE],
    varnames := [], argcount := 0, defaults := [], globals := [],
    name := "f", doc := "" }

/-- The same function after `@inline`. -/
def exCallee0 : FuncObj := inline exCallee0Raw

/-- The caller `def g(): return f()`: a plain zero-argument
`CALL_FUNCTION` of a global function — a supported call site shape (no
keyword arguments, the callee loaded by a `LOAD_GLOBAL`, no closure or
by-name variables anywhere). -/
def exCaller0Code : List Instr :=
  [.SetLineno 2, .LOAD_GLOBAL "f", .CALL_FUNCTION 0, .RETURN_VALUE]

/-- C1: the claim says that for every supported call site the rewrite
replaces the `CALL_FUNCTION` with the callee's instructions, removes the
load of the callee, and installs the result, so later invocations execute
no call.  It does not: the splice `dest[callsite:callsite+1] = src` and
the deletion of the load sit inside the `for i in xrange(numargs)` loop
(lines 249-270 of the source), so for a zero-argument call the loop body
never runs.  The core still finishes "successfully": the caller's
`func_code` is reassigned (line 273) to its own code with only `SetLineno`
entries stripped — the `CALL_FUNCTION` and the `LOAD_GLOBAL` of the
callee are still in it — and the call site is memoized (line 274), so it
is never inlined on any later invocation either. -/
theorem claim_C1_zero_arg_call_not_inlined :
    inlinemeCore exCaller0Code 1 exCallee0 0 0 =
      .ok [.LOAD_GLOBAL "f", .CALL_FUNCTION 0, .RETURN_VALUE]
        [.LOAD_CONST (.int 5), .RETURN_VALUE] 0 0 ∧
    [Instr.LOAD_GLOBAL "f", .CALL_FUNCTION 0, .RETURN_VALUE] =
      stripSetLineno exCaller0Code ∧
    Instr.CALL_FUNCTION 0 ∈
      [Instr.LOAD_GLOBAL "f", .CALL_FUNCTION 0, .RETURN_VALUE] ∧
    Instr.LOAD_GLOBAL "f" ∈
      [Instr.LOAD_GLOBAL "f", .CALL_FUNCTION 0, .RETURN_VALUE] := by
  exact ⟨rfl, rfl, by decide, by decide⟩

/-- C5: the claim says that during inlining every `RETURN_VALUE` of the
callee is replaced by a jump to a single freshly synthesized label
appended after the last instruction.  The return munge (lines 260-266) is
nested inside the per-argument loop, so for the supported zero-argument
call site above it never runs: the final state of the callee's prepared
instruction list still contains its `RETURN_VALUE`, and no label and no
jump were ever created. -/
theorem claim_C5_return_munge_skipped_for_zero_args :
    inlinemeCore exCaller0Code 1 exCallee0 0 0 =
      .ok [.LOAD_GLOBAL "f", .CALL_FUNCTION 0, .RETURN_VALUE]
        [.LOAD_CONST (.int 5), .RETURN_VALUE] 0 0 ∧
    Instr.RETURN_VALUE ∈ [Instr.LOAD_CONST (.int 5), .RETURN_VALUE] ∧
    ([Instr.LOAD_CONST (.int 5), .RETURN_VALUE].filter fun i =>
      match i with
      | Instr.LabelMark _ => true
      | Instr.JUMP_ABSOLUTE _ => true
      | _ => false) = [] := by
  exact ⟨rfl, by decide, rfl⟩

/-- Module globals shared by the two-argument example: the name `f` bound
to the callee. -/
def exGlobals2 : List (String × Value) := [("f", .func 0)]

/-- The function `def f(a, b): return a + b` before decoration. -/
def exAddRaw : FuncObj :=
  { fid := 0,
    code := [.SetLineno 1, .LOAD_FAST "a", .LOAD_FAST "b", .BINARY_ADD,
             .RETURN_VALUE],
    varnames := ["a", "b"], argcount := 2, defaults := [],
    globals := exGlobals2, name := "f", doc := "" }

/-- The same function after `@inline`. -/
def exAdd : FuncObj := inline exAddRaw

/-- The caller `def g(): return f(3, 4)`: two plain positional
arguments. -/
def exCaller2Code : List Instr :=
  [.SetLineno 2, .LOAD_GLOBAL "f", .LOAD_CONST (.int 3), .LOAD_CONST (.int 4),
   .CALL_FUNCTION 2, .RETURN_VALUE]

/-- Module globals of the builtin-reading example: only the name `f` is
bound; the name `B` is not in the module globals and resolves from the
builtin namespace, like `len` or `abs` in ordinary code. -/
def exGlobalsB : List (String × Value) := [("f", .func 0)]

/-- The function `def f(x): return B` before decoration, where `B` is a
builtin: its `LOAD_GLOBAL B` misses `func_globals` and falls back to the
builtin namespace. -/
def exBRaw : FuncObj :=
  { fid := 0, code := [.SetLineno 1, .LOAD_GLOBAL "B", .RETURN_VALUE],
    varnames := ["x"], argcount := 1, defaults := [],
    globals := exGlobalsB, name := "f", doc := "" }

/-- The same function after `@inline`. -/
def exB : FuncObj := inline exBRaw

/-- The caller `def g(): return f(1)`: one plain positional argument —
the call-site shape on which the rewrite pipeline genuinely completes
and installs stack-balanced code. -/
def exCallerBCode : List Instr :=
  [.SetLineno 2, .LOAD_GLOBAL "f", .LOAD_CONST (.int 1), .CALL_FUNCTION 1,
   .RETURN_VALUE]

/-- The machine for the builtin-reading example: the builtin namespace
binds `B` to 7. -/
def exMachineB : Machine := { funcs := [exBRaw], builtins := [("B", .int 7)] }

/-- The caller code `_inlineme` installs for `g`: the argument is stored
into the renamed local, `LOAD_GLOBAL B` has become an explicit subscript
`func_globals["B"]`, and the return was munged into a jump.  The list is
stack-balanced, so `to_code` succeeds and this code really is installed. -/
def exRewrittenB : List Instr :=
  [.LOAD_CONST (.int 1), .STORE_FAST "_inlined_var1_x",
   .LOAD_CONST (.gdict 0), .LOAD_CONST (.str "B"), .BINARY_SUBSCR,
   .JUMP_ABSOLUTE (.fresh 0), .LabelMark (.fresh 0), .RETURN_VALUE]

/-- C2: the claim says every caller `_inlineme` successfully rewrites is
extensionally equal to the original.  For the caller
`def g(): return f(1)` with `@inline def f(x): return B`, where `B` is a
builtin name, the rewrite completes and installs `exRewrittenB` (first
conjunct); the original caller returns 7, because `LOAD_GLOBAL B` inside
`f` falls back from `func_globals` to the builtin namespace; but the
rewritten caller raises a `KeyError`, because `_rename_local_vars`
replaced the `LOAD_GLOBAL` by a plain subscript of `func_globals`, which
does not consult the builtins (second and third conjuncts).  The fourth
conjunct records that a rewrite of a call with two or more arguments
never even installs: its destination list underflows the stack, `to_code`
raises at line 273, and the core ends in the exception outcome. -/
theorem claim_C2_builtin_global_breaks_equivalence :
    inlinemeCore exCallerBCode 2 exB 0 0 =
      .ok exRewrittenB
        [.STORE_FAST "_inlined_var1_x", .LOAD_CONST (.gdict 0),
         .LOAD_CONST (.str "B"), .BINARY_SUBSCR,
         .JUMP_ABSOLUTE (.fresh 0), .LabelMark (.fresh 0)] 1 1 ∧
    exec exMachineB 100 exCallerBCode 0 [] [] exGlobalsB = .ok (.int 7) ∧
    exec exMachineB 100 exRewrittenB 0 [] [] exGlobalsB = .err ∧
    inlinemeCore exCaller2Code 3 exAdd 0 0 = .exc := by
  exact ⟨rfl, rfl, rfl, rfl⟩

/-- `_ALREADY_INLINED.get(caller, [])`: the list of frame offsets
recorded for a caller (keyed by function identity, as the weak dictionary
keys on the function object). -/
def memoGet (memo : List (Nat × List Nat)) (fid : Nat) : List Nat :=
  match memo with
  | [] => []
  | (k, v) :: rest => if k = fid then v else memoGet rest fid

/-- `_ALREADY_INLINED.setdefault(caller, []).append(frame.f_lasti)`. -/
def memoAdd (memo : List (Nat × List Nat)) (fid : Nat) (off : Nat) :
    List (Nat × List Nat) :=
  match memo with
  | [] => [(fid, [off])]
  | (k, v) :: rest =>
    if k = fid then (k, v ++ [off]) :: rest else (k, v) :: memoAdd rest fid off

/-- The outcomes of the frame introspection `_inlineme` performs before
its rewriting core; these live outside the bytecode model and are taken
as inputs.  `fc3` is the caller resolved through `find_caller(3)` and
`lookup_in_namespace` (lines 181-189; `none` covers a missing name, a
failed lookup and a non-function result).  `fc2` is the outcome of
`find_caller(2)` (line 193): an exception escaping it (`error`, as a
keyword-argument call site can cause), or whether a name was found.
`lookupEqFunc` is the line 199 comparison (`none` models the caught
`KeyError`/`AttributeError`), `frameCodeEq` the line 205 identity check,
and `callsite` the instruction offset `make_code_from_frame` returns for
the frame (line 209). -/
structure InlinemeEnv where
  fc3 : Option FuncObj
  fc2 : Except Unit Bool
  f_lasti : Nat
  lookupEqFunc : Option Bool
  frameCodeEq : Bool
  callsite : Nat

/-- What an invocation of `_inlineme` does: return (optionally having
assigned a new `func_code` to the caller) with the resulting memo table,
or let an exception escape into the program. -/
inductive InlResult where
  | ret (newCode : Option (List Instr)) (memo : List (Nat × List Nat))
  | raised
deriving DecidableEq, Repr

/-- `_inlineme(func)` (lines 169-274), with the frame introspection
outcomes supplied through `env` and the state of the memo table, the name
counter and the label allocator threaded explicitly.  The control flow
mirrors the source order: resolve the caller (bail silently on failure),
run `find_caller(2)` (an exception there propagates), check the memo
table (line 196), compare the named function against `func` (lines
198-202, bail silently), compare the frame's code object with the
caller's (lines 203-207, bail and memoize), then run the rewriting core
and either install the new code (line 273), memoize a bail-out, or let an
exception escape; every completed attempt records `frame.f_lasti` in the
memo (lines 206, 212, 235, 247, 274). -/
def inlineme (env : InlinemeEnv) (func : FuncObj) (memo : List (Nat × List Nat))
    (ctr fresh : Nat) : InlResult :=
  match env.fc3 with
  | none => .ret none memo
  | some caller =>
    match env.fc2 with
    | .error _ => .raised
    | .ok false => .ret none memo
    | .ok true =>
      if env.f_lasti ∈ memoGet memo caller.fid then .ret none memo
      else
        match env.lookupEqFunc with
        | none => .ret none memo
        | some false => .ret none memo
        | some true =>
          if ¬ env.frameCodeEq then .ret none (memoAdd memo caller.fid env.f_lasti)
          else
            match inlinemeCore caller.code env.callsite func ctr fresh with
            | .exc => .raised
            | .bail => .ret none (memoAdd memo caller.fid env.f_lasti)
            | .ok dest _ _ _ => .ret (some dest) (memoAdd memo caller.fid env.f_lasti)

/-- C4: once a frame offset is recorded in the memo table for a caller,
any later invocation of `_inlineme` that reaches the same caller at the
same `f_lasti` returns right at the memo check (line 196): no rewrite is
attempted, no exception is raised, the caller's `func_code` is not
reassigned, and the memo table is unchanged — a call site whose rewrite
attempt was recorded is never retried. -/
theorem claim_C4_memoized_call_site_never_retried (env : InlinemeEnv)
    (func caller : FuncObj) (memo : List (Nat × List Nat)) (ctr fresh : Nat)
    (h3 : env.fc3 = some caller)
    (h2 : env.fc2 = .ok true)
    (hm : env.f_lasti ∈ memoGet memo caller.fid) :
    inlineme env func memo ctr fresh = .ret none memo := by
  simp [inlineme, h3, h2, hm]

/-- Witness for C4 at a concrete state: the memo table already records
offset 12 for the caller (function identity 0), and the invocation
reaching that caller at `f_lasti = 12` returns with nothing changed. -/
theorem claim_C4_memoized_call_site_never_retried_witness :
    inlineme
      { fc3 := some exCallee0Raw, fc2 := .ok true, f_lasti := 12,
        lookupEqFunc := some true, frameCodeEq := true, callsite := 1 }
      exCallee0 [(0, [12])] 0 0 = .ret none [(0, [12])] :=
  claim_C4_memoized_call_site_never_retried
    { fc3 := some exCallee0Raw, fc2 := .ok true, f_lasti := 12,
      lookupEqFunc := some true, frameCodeEq := true, callsite := 1 }
    exCallee0 exCallee0Raw [(0, [12])] 0 0 rfl rfl (by decide)

end Atinline
